import Mathlib

set_option maxHeartbeats 1000000

/-!
Verification of the core of `IteratedPrisonersDilemmaSim.py`.

The Python program is embedded shallowly:

* machine integers are `Int` (Python integers are unbounded, so no wrap-around);
* the global random generator is modelled by an arbitrary stream `g : Nat → Nat`
  together with a position counter threaded through every operation; each call
  to `random.randint`/`random.getrandbits` consumes one stream element, reduced
  into the requested range with `%`.  `random.shuffle` inside the tournament is
  modelled by an oracle `sh : Nat → List Prisoner → List Prisoner` indexed by
  the current counter position (theorems that need it assume the oracle returns
  a permutation of its input, which is all `random.shuffle` guarantees);
* Python objects are values; in-place mutation becomes returning the updated
  value.  Object identity of `Prisoner` instances is made observable through an
  extra `id` field that no operation of the program ever changes;
* the `while` loops are embedded with an explicit iteration bound that matches
  the loop's own bound (`match`: the loop counter runs from 1 to `round_max`,
  so `round_max.toNat` iterations suffice; the bracket loop at least halves the
  population each pass, so `length` iterations suffice — see the lemmas below);
* the uncaught `IndexError` that `set_up_matches` raises on an empty population
  (`current_winners[0]` on an empty list) is modelled by `Option`: `none` is
  the exception, `some` a normal return.
-/

/-- Payoffs for each of the options (module-level constants of the source). -/
def both_rat : Int := 0

/-- Payoff when both players do not tell on each other. -/
def neither_rat : Int := 5

/-- Payoff for the player that told on the other (who did not tell). -/
def ratter : Int := 3

/-- Payoff for the player who was told on (but did not tell themselves). -/
def rattee : Int := -1

/-- The `Strategy` enum of the source. -/
inductive Strategy where
  | NICE
  | GREEDY
  | TITFORTAT
  | NICEUNTIL
  | AVESTRAT
  | RANSTRAT
  | RANDOM
  | USER
deriving DecidableEq, Inhabited

/-- The numeric enum values (`Strategy.NICE.value = 1`, ..., `USER = 8`),
used by `strategy_to_payoff` for dispatch exactly as the source does. -/
def Strategy.value : Strategy → Nat
  | .NICE => 1
  | .GREEDY => 2
  | .TITFORTAT => 3
  | .NICEUNTIL => 4
  | .AVESTRAT => 5
  | .RANSTRAT => 6
  | .RANDOM => 7
  | .USER => 8

/-- The `Prisoner` class.  The `id` field has no counterpart in the source
code: it models Python object identity (no operation of the program writes
it), so that "the same agent" is expressible about the pure embedding. -/
structure Prisoner where
  id : Nat
  strategy : Strategy
  turns : List Bool
  elim_round : Int
  final_score : Int
  elim : Bool
deriving DecidableEq, Inhabited

/-- `Prisoner.__init__`: fresh prisoner with a given strategy (and identity). -/
def Prisoner.init (n : Nat) (strat : Strategy) : Prisoner :=
  { id := n, strategy := strat, turns := [], elim_round := 0, final_score := 0, elim := false }

/-- `Prisoner.set_elim_round` (defined in the source, never called by it). -/
def Prisoner.set_elim_round (p : Prisoner) (num : Int) : Prisoner :=
  { p with elim_round := num, elim := true }

/-- `Prisoner.eliminated`. -/
def Prisoner.eliminated (p : Prisoner) : Prisoner :=
  { p with elim := true }

/-- `nice_until_not(last_move, turns)`.  `last_move` is `None`/`True`/`False`
in Python, hence `Option Bool`; the `if last_move:` test is truthiness, so it
only fires on `some true`. -/
def nice_until_not (last_move : Option Bool) (turns : List Bool) : Bool :=
  if turns.length = 0 then
    true
  else if last_move = some true then
    if turns.getLastD false then true else false
  else if turns.length = 1 then
    false
  else
    if turns.getLastD false && turns.dropLast.getLastD false then true else false

/-- `average_strategy(turns)`. -/
def average_strategy (turns : List Bool) : Bool :=
  if turns.length = 0 then
    true
  else
    let ave := turns.foldl (fun a t => if t then a + 1 else a - 1) (0 : Int)
    if ave ≥ 0 then true else false

/-- `strategy_to_payoff(strat, turns, our_turns)`.  Returns the move together
with the advanced random-stream position.  `turns[random.randint(0, len-1)]`
is modelled by reducing the next stream element modulo `len`;
`bool(random.getrandbits(1))` by the parity of the next stream element. -/
def strategy_to_payoff (g : Nat → Nat) (strat : Strategy) (turns our_turns : List Bool)
    (c : Nat) : Bool × Nat :=
  let last_move : Option Bool :=
    if our_turns.length = 0 then none else some (our_turns.getLastD false)
  if strat.value = 4 then
    (nice_until_not last_move turns, c)
  else if strat.value = 5 then
    (average_strategy turns, c)
  else if strat.value = 6 then
    if turns.length = 0 then (true, c)
    else (turns.getD (g c % turns.length) false, c + 1)
  else if strat.value = 7 then
    (g c % 2 == 1, c + 1)
  else if strat.value = 3 then
    if turns.length = 0 then (true, c) else (turns.getLastD false, c)
  else if strat.value = 1 then
    (true, c)
  else
    (false, c)

/-- The score deltas applied by the branch structure of `dilemma`
(lines 172-185 of the source): both cooperate, one cooperates, neither. -/
def payoff_deltas (choice1 choice2 : Bool) : Int × Int :=
  if choice1 && choice2 then (neither_rat, neither_rat)
  else if choice1 then (rattee, ratter)
  else if choice2 then (ratter, rattee)
  else (both_rat, both_rat)

/-- `dilemma(prisoner1, prisoner2, isuser, userchoice)`: both moves are
decided from the pre-round histories, appended to the histories, and the
payoffs added to the scores. -/
def dilemma (g : Nat → Nat) (prisoner1 prisoner2 : Prisoner) (isuser : Bool)
    (userchoice : Option Bool) (c : Nat) : Prisoner × Prisoner × Nat :=
  let r1 := strategy_to_payoff g prisoner1.strategy prisoner2.turns prisoner1.turns c
  let r2 :=
    if isuser then (userchoice.getD false, r1.2)
    else strategy_to_payoff g prisoner2.strategy prisoner1.turns prisoner2.turns r1.2
  let d := payoff_deltas r1.1 r2.1
  ({ prisoner1 with turns := prisoner1.turns ++ [r1.1],
                    final_score := prisoner1.final_score + d.1 },
   { prisoner2 with turns := prisoner2.turns ++ [r2.1],
                    final_score := prisoner2.final_score + d.2 },
   r2.2)

/-- The `while` loop of `match`: plays rounds while
`round_num <= round_max and prisoner1.final_score > elim_num and
prisoner2.final_score > elim_num`.  The fuel argument only bounds the
iteration count; `pd_match` passes `round_max.toNat`, which is exact:
the counter starts at 1 and increases each pass, so the fuel runs out
precisely when `round_num > round_max` would. -/
def match_loop (g : Nat → Nat) (elim_num round_max : Int) :
    Nat → Prisoner → Prisoner → Int → Nat → Prisoner × Prisoner × Nat
  | 0, p1, p2, _, c => (p1, p2, c)
  | fuel + 1, p1, p2, round_num, c =>
    if round_num ≤ round_max ∧ p1.final_score > elim_num ∧ p2.final_score > elim_num then
      let r := dilemma g p1 p2 false none c
      match_loop g elim_num round_max fuel r.1 r.2.1 (round_num + 1) r.2.2
    else
      (p1, p2, c)

/-- `match(prisoner1, prisoner2, elim_num, round_max)` of the source
(`match` is a reserved word in Lean): reset both prisoners, run the round
loop, then return `(winner, loser)`, eliminating the loser — on
`prisoner1.final_score <= prisoner2.final_score` the loser is `prisoner1`. -/
def pd_match (g : Nat → Nat) (prisoner1 prisoner2 : Prisoner) (elim_num round_max : Int)
    (c : Nat) : Prisoner × Prisoner × Nat :=
  let q1 := { prisoner1 with final_score := 0, turns := [] }
  let q2 := { prisoner2 with final_score := 0, turns := [] }
  let r := match_loop g elim_num round_max round_max.toNat q1 q2 1 c
  if r.1.final_score ≤ r.2.1.final_score then
    (r.2.1, { r.1 with elim := true }, r.2.2)
  else
    (r.1, { r.2.1 with elim := true }, r.2.2)

/-- The `for i in range(0, math.floor(len(prisoners)/2))` loop of
`set_up_matches`: pits `prisoners[i]` against `prisoners[len-i-1]`,
appending the winner to `current_winners` (`cw`) and the loser to
`final_prisoners` (`fp`).  `k` is the number of iterations left,
so the call site passes `k = ps.length / 2` and `i = 0`. -/
def pair_loop (g : Nat → Nat) (elim_num round_max : Int) (ps : List Prisoner) :
    Nat → Nat → List Prisoner → List Prisoner → Nat → List Prisoner × List Prisoner × Nat
  | 0, _, cw, fp, c => (cw, fp, c)
  | k + 1, i, cw, fp, c =>
    let r := pd_match g (ps.getD i default) (ps.getD (ps.length - i - 1) default)
      elim_num round_max c
    pair_loop g elim_num round_max ps k (i + 1) (cw ++ [r.1]) (fp ++ [r.2.1]) r.2.2

/-- The `while len(current_winners) > 1` loop of `set_up_matches`.  At every
loop head the contents of `current_winners` and of the (mutated in place)
argument list `prisoners` coincide, so a single list `ps` carries both: it is
shuffled, the middle element is carried over as a bye when the count is odd,
the pairing loop runs, and the survivors become the next `ps`.  Each pass
maps a population of `n ≥ 2` to `n % 2 + n / 2 ≤ n - 1` survivors, so fuel
`ps.length` is enough for the loop to reach its exit condition. -/
def tournament_loop (g : Nat → Nat) (sh : Nat → List Prisoner → List Prisoner)
    (elim_num round_max : Int) :
    Nat → List Prisoner → List Prisoner → Nat → List Prisoner × List Prisoner × Nat
  | 0, ps, fp, c => (ps, fp, c)
  | fuel + 1, ps, fp, c =>
    if ps.length > 1 then
      let ps1 := sh c ps
      let cw0 : List Prisoner :=
        if ps1.length % 2 = 1 then [ps1.getD (ps1.length / 2) default] else []
      let r := pair_loop g elim_num round_max ps1 (ps1.length / 2) 0 cw0 fp (c + 1)
      tournament_loop g sh elim_num round_max fuel r.1 r.2.1 r.2.2
    else
      (ps, fp, c)

/-- `set_up_matches(prisoners, elim_num, round_max)`.  The result is
`some (final_prisoners, prisoners)` — the returned list together with the
final state of the caller's (mutated in place) argument list — or `none`
for the uncaught `IndexError` of `current_winners[0]` on an empty
population. -/
def set_up_matches (g : Nat → Nat) (sh : Nat → List Prisoner → List Prisoner)
    (prisoners : List Prisoner) (elim_num round_max : Int) (c : Nat) :
    Option (List Prisoner × List Prisoner) :=
  let r := tournament_loop g sh elim_num round_max prisoners.length prisoners [] c
  match r.1 with
  | [] => none
  | w :: _ => some (r.2.1 ++ [w], r.1)

/-- Modelled from the spec: §4.1's description of the `NiceUntilNot` decision
rule, written from the spec's words, to be compared against the source's
`nice_until_not` as dispatched by `strategy_to_payoff`. -/
def niceUntilNotSpec (ownHistory opponentHistory : List Bool) : Bool :=
  if opponentHistory = [] then
    true
  else if ownHistory.getLast? = some true then
    opponentHistory.getLastD false
  else if opponentHistory.length = 1 then
    false
  else
    opponentHistory.getLastD false && opponentHistory.dropLast.getLastD false

/-- A fixed all-zero random stream, used for concrete runs (no strategy in
those runs consumes randomness). -/
def g0 : Nat → Nat := fun _ => 0

/-- The identity shuffle oracle, used for concrete runs. -/
def idsh : Nat → List Prisoner → List Prisoner := fun _ l => l

/-- Concrete agent: a `NICE` prisoner with identity 1. -/
def pA : Prisoner := Prisoner.init 1 Strategy.NICE

/-- Concrete agent: a `NICE` prisoner with identity 2. -/
def pB : Prisoner := Prisoner.init 2 Strategy.NICE

/-- The fields of a `Prisoner` that no round of play ever writes: a match
only changes `turns` and `final_score` (and sets the loser's `elim` flag at
the very end). -/
def sameAgent (q p : Prisoner) : Prop :=
  q.id = p.id ∧ q.strategy = p.strategy ∧ q.elim = p.elim ∧ q.elim_round = p.elim_round

theorem sameAgent_refl (p : Prisoner) : sameAgent p p :=
  ⟨rfl, rfl, rfl, rfl⟩

theorem last_opt_eq (l : List Bool) :
    ((if l.length = 0 then none else some (l.getLastD false)) = some true) =
      (l.getLast? = some true) := by
  cases l with
  | nil => simp
  | cons a t =>
    simp only [List.length_cons]
    rw [if_neg (by omega), List.getLastD_eq_getLast?]
    cases hl : (a :: t).getLast? with
    | none => simp at hl
    | some b => simp

/-- One round of `dilemma` appends one move to each history and adds the
matching `payoff_deltas` to each score, leaving every other field alone. -/
theorem dilemma_spec (g : Nat → Nat) (p1 p2 : Prisoner) (iu : Bool) (u : Option Bool)
    (c : Nat) :
    ∃ b1 b2 c',
      dilemma g p1 p2 iu u c =
        ({ p1 with turns := p1.turns ++ [b1],
                   final_score := p1.final_score + (payoff_deltas b1 b2).1 },
         { p2 with turns := p2.turns ++ [b2],
                   final_score := p2.final_score + (payoff_deltas b1 b2).2 },
         c') :=
  ⟨_, _, _, rfl⟩

/-- The behaviour of the `match` round loop: it plays some number `k ≤ fuel`
of rounds (one history entry each per round), never touches the identity
fields, and exits before exhausting its fuel only because the loop condition
failed. -/
theorem match_loop_main (g : Nat → Nat) (e rm : Int) :
    ∀ (fuel : Nat) (p1 p2 : Prisoner) (rn : Int) (c : Nat),
      ∃ k : Nat, k ≤ fuel ∧
        sameAgent (match_loop g e rm fuel p1 p2 rn c).1 p1 ∧
        sameAgent (match_loop g e rm fuel p1 p2 rn c).2.1 p2 ∧
        (match_loop g e rm fuel p1 p2 rn c).1.turns.length = p1.turns.length + k ∧
        (match_loop g e rm fuel p1 p2 rn c).2.1.turns.length = p2.turns.length + k ∧
        (k < fuel →
          ¬(rn + (k : Int) ≤ rm ∧ (match_loop g e rm fuel p1 p2 rn c).1.final_score > e ∧
            (match_loop g e rm fuel p1 p2 rn c).2.1.final_score > e)) := by
  intro fuel
  induction fuel with
  | zero =>
    intro p1 p2 rn c
    exact ⟨0, Nat.le_refl 0, sameAgent_refl p1, sameAgent_refl p2, rfl, rfl, by omega⟩
  | succ fuel ih =>
    intro p1 p2 rn c
    simp only [match_loop]
    split
    case isTrue hcond =>
      obtain ⟨b1, b2, c', heq⟩ := dilemma_spec g p1 p2 false none c
      rw [heq]
      obtain ⟨k, hk, hs1, hs2, hl1, hl2, hstop⟩ := ih _ _ (rn + 1) c'
      refine ⟨k + 1, by omega, ?_, ?_, ?_, ?_, ?_⟩
      · exact hs1
      · exact hs2
      · rw [hl1]; simp; omega
      · rw [hl2]; simp; omega
      · intro hlt hcontra
        refine hstop (by omega) ⟨?_, hcontra.2.1, hcontra.2.2⟩
        have := hcontra.1
        push_cast at this ⊢
        omega
    case isFalse hcond =>
      refine ⟨0, by omega, sameAgent_refl p1, sameAgent_refl p2, rfl, rfl, ?_⟩
      intro _
      simpa using hcond

/-- The full behaviour of `match` needed by the claims: the loser is flagged
`elim`, never out-scores the winner, a tied match makes the first argument
the loser, identities/strategies/rounds pass through, the two histories have
equal length `k ≤ round_max.toNat`, and `k` falls short of the bound only
when one final score is at or below the threshold. -/
theorem pd_match_spec (g : Nat → Nat) (p1 p2 : Prisoner) (e rm : Int) (c : Nat) :
    ∃ w l c',
      pd_match g p1 p2 e rm c = (w, l, c') ∧
      l.elim = true ∧
      l.final_score ≤ w.final_score ∧
      (w.final_score = l.final_score → l.id = p1.id ∧ w.id = p2.id) ∧
      ((w.id = p2.id ∧ w.strategy = p2.strategy ∧ w.elim = p2.elim ∧
        w.elim_round = p2.elim_round ∧ l.id = p1.id ∧ l.strategy = p1.strategy ∧
        l.elim_round = p1.elim_round) ∨
       (w.id = p1.id ∧ w.strategy = p1.strategy ∧ w.elim = p1.elim ∧
        w.elim_round = p1.elim_round ∧ l.id = p2.id ∧ l.strategy = p2.strategy ∧
        l.elim_round = p2.elim_round)) ∧
      w.turns.length = l.turns.length ∧
      w.turns.length ≤ rm.toNat ∧
      (w.turns.length < rm.toNat → w.final_score ≤ e ∨ l.final_score ≤ e) := by
  obtain ⟨k, hk, hs1, hs2, hl1, hl2, hstop⟩ :=
    match_loop_main g e rm rm.toNat
      { p1 with final_score := 0, turns := [] } { p2 with final_score := 0, turns := [] } 1 c
  obtain ⟨i1, g1, e1, r1⟩ := hs1
  obtain ⟨i2, g2, e2, r2⟩ := hs2
  obtain ⟨q1, q2, c2, hloop⟩ :
      ∃ a b cc,
        match_loop g e rm rm.toNat
          { p1 with final_score := 0, turns := [] } { p2 with final_score := 0, turns := [] }
          1 c = (a, b, cc) :=
    ⟨_, _, _, rfl⟩
  rw [hloop] at hl1 hl2 i1 g1 e1 r1 i2 g2 e2 r2 hstop
  simp only [List.length_nil, Nat.zero_add] at hl1 hl2 i1 g1 e1 r1 i2 g2 e2 r2 hstop
  have hres :
      pd_match g p1 p2 e rm c =
        if q1.final_score ≤ q2.final_score then (q2, { q1 with elim := true }, c2)
        else (q1, { q2 with elim := true }, c2) := by
    simp only [pd_match, hloop]
  have hscore : k < rm.toNat → q1.final_score ≤ e ∨ q2.final_score ≤ e := by
    intro hlt
    by_contra hno
    push_neg at hno
    exact hstop hlt ⟨by omega, by omega, by omega⟩
  rw [hres]
  by_cases hle : q1.final_score ≤ q2.final_score
  · rw [if_pos hle]
    refine ⟨q2, { q1 with elim := true }, c2, rfl, rfl, hle, fun _ => ⟨i1, i2⟩,
      Or.inl ⟨i2, g2, e2, r2, i1, g1, r1⟩, ?_, ?_, ?_⟩
    · show q2.turns.length = q1.turns.length
      omega
    · show q2.turns.length ≤ rm.toNat
      omega
    · intro hlt
      have := hscore (by simpa [hl2] using hlt)
      exact this.symm
  · rw [if_neg hle]
    refine ⟨q1, { q2 with elim := true }, c2, rfl, rfl,
      show q2.final_score ≤ q1.final_score by omega,
      fun hteq => absurd (show q1.final_score = q2.final_score from hteq) (by omega),
      Or.inr ⟨i1, g1, e1, r1, i2, g2, r2⟩, ?_, ?_, ?_⟩
    · show q1.turns.length = q2.turns.length
      omega
    · show q1.turns.length ≤ rm.toNat
      omega
    · intro hlt
      exact hscore (by simpa [hl1] using hlt)

/-- Claim C1 is false as stated: in a tied match the FIRST argument
(`prisoner1`) is the one eliminated, not the second.  Concretely, two `NICE`
agents with threshold -10 and one round both end on score 5 (an exact tie),
and it is the first agent (identity 1) that carries the elimination flag
while the second agent (identity 2) is returned as winner. -/
theorem c1_counterexample :
    (pd_match g0 pA pB (-10) 1 0).1.final_score = (pd_match g0 pA pB (-10) 1 0).2.1.final_score ∧
    (pd_match g0 pA pB (-10) 1 0).2.1.id = pA.id ∧
    (pd_match g0 pA pB (-10) 1 0).2.1.elim = true ∧
    (pd_match g0 pA pB (-10) 1 0).1.id = pB.id ∧
    (pd_match g0 pA pB (-10) 1 0).1.elim = false := by
  decide

/-- Claim C1 (amended): for every pair of agents, every threshold and every
round bound, `match` returns as winner an agent whose final score is at least
the loser's (hence strictly higher whenever the scores differ), sets the
loser's elimination flag, and on an exact tie declares the FIRST agent
(`prisoner1`, the first argument) the loser, returning the second as winner. -/
theorem c1_amended (g : Nat → Nat) (p1 p2 : Prisoner) (e rm : Int) (c : Nat) :
    ∃ w l c', pd_match g p1 p2 e rm c = (w, l, c') ∧
      l.elim = true ∧
      l.final_score ≤ w.final_score ∧
      (w.final_score = l.final_score → l.id = p1.id ∧ w.id = p2.id) ∧
      ((l.id = p1.id ∧ w.id = p2.id) ∨ (l.id = p2.id ∧ w.id = p1.id)) := by
  obtain ⟨w, l, c', heq, hel, hsc, htie, hids, -, -, -⟩ := pd_match_spec g p1 p2 e rm c
  refine ⟨w, l, c', heq, hel, hsc, htie, ?_⟩
  rcases hids with h | h
  · exact Or.inl ⟨h.2.2.2.2.1, h.1⟩
  · exact Or.inr ⟨h.2.2.2.2.1, h.1⟩

/-- Witness for `c1_amended` at a concrete tied match. -/
theorem c1_witness :
    ∃ w l c', pd_match g0 pA pB (-10) 1 0 = (w, l, c') ∧
      l.elim = true ∧
      l.final_score ≤ w.final_score ∧
      (w.final_score = l.final_score → l.id = pA.id ∧ w.id = pB.id) ∧
      ((l.id = pA.id ∧ w.id = pB.id) ∨ (l.id = pB.id ∧ w.id = pA.id)) :=
  c1_amended g0 pA pB (-10) 1 0

/-- Claim C3 is false as stated: asked to decide for the `USER` (`Human`)
strategy, `strategy_to_payoff` does not fail — it produces the automatic
decision `false` (defect), here on empty histories. -/
theorem c3_counterexample :
    strategy_to_payoff g0 Strategy.USER [] [] 0 = (false, 0) :=
  rfl

/-- Claim C3 (amended): `strategy_to_payoff` for the `USER` (`Human`)
strategy never fails; the dispatch falls through every branch into the final
`GREEDY` else-branch, returning defect (`false`) for every pair of histories
and consuming no randomness. -/
theorem c3_amended (g : Nat → Nat) (turns our_turns : List Bool) (c : Nat) :
    strategy_to_payoff g Strategy.USER turns our_turns c = (false, c) :=
  rfl

/-- Claim C6: the payoff table gives (5,5) on mutual cooperation, (0,0) on
mutual defection, and (defector 3, cooperator -1) on a mixed pair; it is
component-swap symmetric, the deltas sum to 10/0/2 respectively, and in the
mixed case the defector's share is strictly larger. -/
theorem c6_theorem :
    payoff_deltas true true = (5, 5) ∧
    payoff_deltas false false = (0, 0) ∧
    payoff_deltas false true = (3, -1) ∧
    payoff_deltas true false = (-1, 3) ∧
    (∀ a b : Bool,
      (payoff_deltas a b).1 = (payoff_deltas b a).2 ∧
      (payoff_deltas a b).2 = (payoff_deltas b a).1) ∧
    (payoff_deltas true true).1 + (payoff_deltas true true).2 = 10 ∧
    (payoff_deltas false false).1 + (payoff_deltas false false).2 = 0 ∧
    (payoff_deltas true false).1 + (payoff_deltas true false).2 = 2 ∧
    (payoff_deltas false true).1 + (payoff_deltas false true).2 = 2 ∧
    (payoff_deltas true false).2 > (payoff_deltas true false).1 ∧
    (payoff_deltas false true).1 > (payoff_deltas false true).2 := by
  decide

/-- Claim C7: the `NiceUntilNot` decision of the program agrees, on every
pair of histories, with the spec's description: `true` on an empty opponent
history; mirror the opponent's last move when the agent's own last move is
explicitly cooperation (an absent own last move does NOT trigger the mirror
branch); `false` when the opponent history has exactly one entry; otherwise
`true` iff the opponent's two most recent moves were both cooperation. -/
theorem c7_theorem (g : Nat → Nat) (ownHistory opponentHistory : List Bool) (c : Nat) :
    (strategy_to_payoff g Strategy.NICEUNTIL opponentHistory ownHistory c).1 =
      niceUntilNotSpec ownHistory opponentHistory := by
  have hdisp :
      strategy_to_payoff g Strategy.NICEUNTIL opponentHistory ownHistory c =
        (nice_until_not
          (if ownHistory.length = 0 then none else some (ownHistory.getLastD false))
          opponentHistory, c) := rfl
  rw [hdisp]
  show nice_until_not _ opponentHistory = _
  unfold nice_until_not niceUntilNotSpec
  simp only [last_opt_eq]
  by_cases h0 : opponentHistory.length = 0
  · simp [if_pos h0, List.length_eq_zero.mp h0]
  · have hne : ¬(opponentHistory = []) := fun h => h0 (by simp [h])
    simp only [if_neg h0, if_neg hne]
    by_cases hm : ownHistory.getLast? = some true
    · simp only [if_pos hm]
      by_cases hb : opponentHistory.getLastD false <;> simp [hb]
    · simp only [if_neg hm]
      by_cases h1 : opponentHistory.length = 1
      · simp only [if_pos h1]
      · simp only [if_neg h1]
        by_cases hb : opponentHistory.getLastD false &&
            opponentHistory.dropLast.getLastD false <;> simp [hb]

/-- Claim C8: for positive `round_max`, `match` terminates after at most
`round_max` rounds — both (reset) histories end with the same length
`n ≤ round_max` — and it stops short of the bound only because some agent's
score has fallen to the elimination threshold or below. -/
theorem c8_theorem (g : Nat → Nat) (p1 p2 : Prisoner) (e rm : Int) (c : Nat)
    (h : 0 < rm) :
    ∃ n : Nat, (n : Int) ≤ rm ∧
      (pd_match g p1 p2 e rm c).1.turns.length = n ∧
      (pd_match g p1 p2 e rm c).2.1.turns.length = n ∧
      ((n : Int) < rm →
        (pd_match g p1 p2 e rm c).1.final_score ≤ e ∨
        (pd_match g p1 p2 e rm c).2.1.final_score ≤ e) := by
  obtain ⟨w, l, c', heq, -, -, -, -, hlen, hbound, hstop⟩ := pd_match_spec g p1 p2 e rm c
  rw [heq]
  refine ⟨w.turns.length, by omega, rfl, by simp [hlen], ?_⟩
  intro hlt
  exact hstop (by omega)

/-- Witness for `c8_theorem` on a concrete one-round match. -/
theorem c8_witness :
    (0 : Int) < 1 ∧
      ∃ n : Nat, (n : Int) ≤ 1 ∧
        (pd_match g0 pA pB (-10) 1 0).1.turns.length = n ∧
        (pd_match g0 pA pB (-10) 1 0).2.1.turns.length = n ∧
        ((n : Int) < 1 →
          (pd_match g0 pA pB (-10) 1 0).1.final_score ≤ (-10) ∨
          (pd_match g0 pA pB (-10) 1 0).2.1.final_score ≤ (-10)) :=
  ⟨by decide, c8_theorem g0 pA pB (-10) 1 0 (by decide)⟩

/-- Claim C9: with a non-negative elimination threshold the round loop of
`match` never runs: both agents come back with score 0 and empty history
(the reset state), and the zero-zero tie makes the first agent the loser,
elimination flag set. -/
theorem c9_theorem (g : Nat → Nat) (p1 p2 : Prisoner) (e rm : Int) (c : Nat)
    (h : 0 ≤ e) :
    pd_match g p1 p2 e rm c =
      ({ p2 with final_score := 0, turns := [] },
       { p1 with final_score := 0, turns := [], elim := true }, c) := by
  have hloop :
      match_loop g e rm rm.toNat { p1 with final_score := 0, turns := [] }
        { p2 with final_score := 0, turns := [] } 1 c =
        ({ p1 with final_score := 0, turns := [] },
         { p2 with final_score := 0, turns := [] }, c) := by
    cases hn : rm.toNat with
    | zero => simp [match_loop]
    | succ n =>
      simp only [match_loop]
      rw [if_neg]
      intro hcontra
      have h1 : ({ p1 with final_score := 0, turns := [] } : Prisoner).final_score > e :=
        hcontra.2.1
      simp only at h1
      omega
  simp only [pd_match, hloop]
  rfl

/-- Witness for `c9_theorem` at a concrete zero threshold. -/
theorem c9_witness :
    (0 : Int) ≤ 0 ∧
      pd_match g0 pA pB 0 5 0 =
        ({ pB with final_score := 0, turns := [] },
         { pA with final_score := 0, turns := [], elim := true }, 0) :=
  ⟨by decide, c9_theorem g0 pA pB 0 5 0 (by decide)⟩

theorem getD_mem {α : Type} (l : List α) (j : Nat) (d : α) (h : j < l.length) :
    l.getD j d ∈ l := by
  rw [List.getD_eq_getElem?_getD, List.getElem?_eq_getElem h]
  exact List.getElem_mem h

theorem map_getD_range {α : Type} (d : α) : ∀ l : List α,
    (List.range l.length).map (fun j => l.getD j d) = l := by
  intro l
  induction l with
  | nil => simp
  | cons a t ih =>
    rw [List.length_cons, List.range_succ_eq_map, List.map_cons, List.map_map]
    simp only [List.getD_cons_zero]
    congr 1

theorem range_map_rev : ∀ m n : Nat, m ≤ n →
    (List.range m).map (fun j => n - j - 1) = (List.range' (n - m) m).reverse := by
  intro m
  induction m with
  | zero => intro n _; simp
  | succ m ih =>
    intro n h
    rw [List.range_succ, List.map_append, ih n (by omega)]
    have h1 : List.range' (n - (m + 1)) (m + 1) = (n - (m + 1)) :: List.range' (n - m) m := by
      rw [List.range'_succ]
      have h2 : n - (m + 1) + 1 = n - m := by omega
      rw [h2]
    rw [h1, List.reverse_cons]
    congr 1

/-- The indices the bracket round touches — the odd middle (bye) index, the
left halves `i`, and the right halves `n - i - 1` — are exactly `0..n-1`,
each once. -/
theorem pairing_index_perm (n : Nat) :
    (((if n % 2 = 1 then [n / 2] else []) ++ List.range (n / 2)) ++
      (List.range (n / 2)).map (fun j => n - j - 1)).Perm (List.range n) := by
  have hm : n / 2 ≤ n := Nat.div_le_self n 2
  rw [range_map_rev (n / 2) n hm]
  by_cases hodd : n % 2 = 1
  · rw [if_pos hodd]
    have hnm : n - n / 2 = n / 2 + 1 := by omega
    rw [hnm]
    have hA : List.range' 0 (n / 2) ++ List.range' (n / 2) (n / 2 + 1) = List.range n := by
      rw [List.range_eq_range']
      have happ := List.range'_append 0 (n / 2) (n / 2 + 1) 1
      simp only [Nat.zero_add, Nat.one_mul] at happ
      rw [happ]
      congr 1
      omega
    have e1 : ([n / 2] ++ List.range (n / 2)) ++ (List.range' (n / 2 + 1) (n / 2)).reverse
        = n / 2 :: (List.range (n / 2) ++ (List.range' (n / 2 + 1) (n / 2)).reverse) := by
      simp
    rw [e1]
    refine List.Perm.trans (List.Perm.cons _ (List.Perm.append_left _ (List.reverse_perm _))) ?_
    refine List.Perm.trans List.perm_middle.symm ?_
    rw [← hA, List.range_eq_range', List.range'_succ]
  · rw [if_neg hodd]
    have hnm : n - n / 2 = n / 2 := by omega
    rw [hnm]
    have hA : List.range' 0 (n / 2) ++ List.range' (n / 2) (n / 2) = List.range n := by
      rw [List.range_eq_range']
      have happ := List.range'_append 0 (n / 2) (n / 2) 1
      simp only [Nat.zero_add, Nat.one_mul] at happ
      rw [happ]
      congr 1
      omega
    have e1 : (([] : List Nat) ++ List.range (n / 2)) ++ (List.range' (n / 2) (n / 2)).reverse
        = List.range (n / 2) ++ (List.range' (n / 2) (n / 2)).reverse := by
      simp
    rw [e1]
    refine List.Perm.trans (List.Perm.append_left _ (List.reverse_perm _)) ?_
    rw [← hA, List.range_eq_range']

/-- The behaviour of the pairing loop of `set_up_matches`: it appends `k`
winners to `current_winners` and `k` losers to `final_prisoners`, the
identities of winners-plus-losers are exactly the identities at the paired
positions `i, …, i+k-1` and their mirrors, every loser carries the
elimination flag, winners keep theirs, and nobody's `elim_round` changes. -/
theorem pair_loop_spec (g : Nat → Nat) (e rm : Int) (ps : List Prisoner) :
    ∀ (k i : Nat) (cw fp : List Prisoner) (c : Nat), i + k ≤ ps.length / 2 →
      ∃ W L c',
        pair_loop g e rm ps k i cw fp c = (cw ++ W, fp ++ L, c') ∧
        W.length = k ∧ L.length = k ∧
        (W.map Prisoner.id ++ L.map Prisoner.id).Perm
          (((List.range' i k).map fun j => (ps.getD j default).id) ++
           ((List.range' i k).map fun j => (ps.getD (ps.length - j - 1) default).id)) ∧
        ((∀ p ∈ ps, p.elim = false) → ∀ w ∈ W, w.elim = false) ∧
        (∀ l ∈ L, l.elim = true) ∧
        ((∀ p ∈ ps, p.elim_round = 0) →
          (∀ w ∈ W, w.elim_round = 0) ∧ (∀ l ∈ L, l.elim_round = 0)) := by
  intro k
  induction k with
  | zero =>
    intro i cw fp c _
    refine ⟨[], [], c, by simp [pair_loop], rfl, rfl, by simp, ?_, ?_, ?_⟩
    · intro _ w hw; simp at hw
    · intro l hl; simp at hl
    · intro _; exact ⟨fun w hw => by simp at hw, fun l hl => by simp at hl⟩
  | succ k ih =>
    intro i cw fp c hik
    have hm2 : ps.length / 2 ≤ ps.length := Nat.div_le_self _ 2
    have hi : i < ps.length := by omega
    have hi2 : ps.length - i - 1 < ps.length := by omega
    have hmem1 : ps.getD i default ∈ ps := getD_mem ps i default hi
    have hmem2 : ps.getD (ps.length - i - 1) default ∈ ps :=
      getD_mem ps (ps.length - i - 1) default hi2
    obtain ⟨w, l, c1, heq, hel, -, -, hids, -, -, -⟩ :=
      pd_match_spec g (ps.getD i default) (ps.getD (ps.length - i - 1) default) e rm c
    obtain ⟨W', L', c', heqr, hlW, hlL, hperm, hWe, hLe, hrnd⟩ :=
      ih (i + 1) (cw ++ [w]) (fp ++ [l]) c1 (by omega)
    refine ⟨w :: W', l :: L', c', ?_, by simp [hlW], by simp [hlL], ?_, ?_, ?_, ?_⟩
    · show pair_loop g e rm ps (k + 1) i cw fp c = _
      simp only [pair_loop, heq]
      rw [heqr]
      simp [List.append_assoc]
    · rw [List.range'_succ]
      simp only [List.map_cons]
      have hpair : [w.id, l.id].Perm
          [(ps.getD i default).id, (ps.getD (ps.length - i - 1) default).id] := by
        rcases hids with h | h
        · rw [h.1, h.2.2.2.2.1]
          exact List.Perm.swap _ _ _
        · rw [h.1, h.2.2.2.2.1]
      have t1 : ((w.id :: W'.map Prisoner.id) ++ (l.id :: L'.map Prisoner.id)).Perm
          (w.id :: l.id :: (W'.map Prisoner.id ++ L'.map Prisoner.id)) :=
        List.Perm.cons _ List.perm_middle
      have t2 : (w.id :: l.id :: (W'.map Prisoner.id ++ L'.map Prisoner.id)).Perm
          (w.id :: l.id :: (((List.range' (i + 1) k).map fun j =>
            (ps.getD j default).id) ++ ((List.range' (i + 1) k).map fun j =>
            (ps.getD (ps.length - j - 1) default).id))) :=
        List.Perm.cons _ (List.Perm.cons _ hperm)
      have t3 : (w.id :: l.id :: (((List.range' (i + 1) k).map fun j =>
            (ps.getD j default).id) ++ ((List.range' (i + 1) k).map fun j =>
            (ps.getD (ps.length - j - 1) default).id))).Perm
          ((ps.getD i default).id :: (ps.getD (ps.length - i - 1) default).id ::
            (((List.range' (i + 1) k).map fun j => (ps.getD j default).id) ++
             ((List.range' (i + 1) k).map fun j =>
               (ps.getD (ps.length - j - 1) default).id))) :=
        hpair.append_right _
      have t4 : ((ps.getD i default).id :: (ps.getD (ps.length - i - 1) default).id ::
            (((List.range' (i + 1) k).map fun j => (ps.getD j default).id) ++
             ((List.range' (i + 1) k).map fun j =>
               (ps.getD (ps.length - j - 1) default).id))).Perm
          ((ps.getD i default).id :: (((List.range' (i + 1) k).map fun j =>
            (ps.getD j default).id) ++ (ps.getD (ps.length - i - 1) default).id ::
            ((List.range' (i + 1) k).map fun j =>
              (ps.getD (ps.length - j - 1) default).id))) :=
        List.Perm.cons _ List.perm_middle.symm
      exact t1.trans (t2.trans (t3.trans t4))
    · intro hb x hx
      rcases List.mem_cons.mp hx with hx | hx
      · subst hx
        rcases hids with h | h
        · rw [h.2.2.1]; exact hb _ hmem2
        · rw [h.2.2.1]; exact hb _ hmem1
      · exact hWe hb x hx
    · intro x hx
      rcases List.mem_cons.mp hx with hx | hx
      · subst hx; exact hel
      · exact hLe x hx
    · intro hr
      obtain ⟨hrW, hrL⟩ := hrnd hr
      constructor
      · intro x hx
        rcases List.mem_cons.mp hx with hx | hx
        · subst hx
          rcases hids with h | h
          · rw [h.2.2.2.1]; exact hr _ hmem2
          · rw [h.2.2.2.1]; exact hr _ hmem1
        · exact hrW x hx
      · intro x hx
        rcases List.mem_cons.mp hx with hx | hx
        · subst hx
          rcases hids with h | h
          · rw [h.2.2.2.2.2.2]; exact hr _ hmem1
          · rw [h.2.2.2.2.2.2]; exact hr _ hmem2
        · exact hrL x hx

/-- One bracket pass conserves identities: bye plus winners plus losers is a
permutation of the (shuffled) population. -/
theorem round_ids_perm (q : List Prisoner) (W L : List Prisoner)
    (hperm : (W.map Prisoner.id ++ L.map Prisoner.id).Perm
      (((List.range' 0 (q.length / 2)).map fun j => (q.getD j default).id) ++
       ((List.range' 0 (q.length / 2)).map fun j => (q.getD (q.length - j - 1) default).id))) :
    (((if q.length % 2 = 1 then [q.getD (q.length / 2) default] else []) ++ W).map Prisoner.id
      ++ L.map Prisoner.id).Perm (q.map Prisoner.id) := by
  have hidx := (pairing_index_perm q.length).map (fun j => (q.getD j default).id)
  rw [List.map_append, List.map_append, List.map_map] at hidx
  have hrange : (List.range q.length).map (fun j => (q.getD j default).id)
      = q.map Prisoner.id := by
    have h1 : (List.range q.length).map (fun j => (q.getD j default).id)
        = ((List.range q.length).map (fun j => q.getD j default)).map Prisoner.id := by
      rw [List.map_map]
      rfl
    rw [h1, map_getD_range]
  rw [hrange] at hidx
  have hif : (List.map (fun j => (q.getD j default).id)
      (if q.length % 2 = 1 then [q.length / 2] else ([] : List Nat)))
      = (if q.length % 2 = 1 then [q.getD (q.length / 2) default] else []).map Prisoner.id := by
    by_cases h : q.length % 2 = 1 <;> simp [h]
  rw [hif] at hidx
  rw [List.map_append]
  have hstep : ((if q.length % 2 = 1 then [q.getD (q.length / 2) default] else []).map
        Prisoner.id ++ W.map Prisoner.id ++ L.map Prisoner.id).Perm
      ((if q.length % 2 = 1 then [q.getD (q.length / 2) default] else []).map Prisoner.id ++
        (((List.range' 0 (q.length / 2)).map fun j => (q.getD j default).id) ++
         ((List.range' 0 (q.length / 2)).map fun j =>
           (q.getD (q.length - j - 1) default).id))) := by
    rw [List.append_assoc]
    exact List.Perm.append_left _ hperm
  refine hstep.trans ?_
  refine List.Perm.trans ?_ hidx
  rw [← List.range_eq_range', ← List.append_assoc]
  apply List.Perm.append_left
  exact List.Perm.refl _

/-- Invariant of the bracket loop, for any shuffle oracle that returns
permutations: identities of survivors-plus-finalized are conserved, agents
entering un-eliminated leave the survivor pool un-eliminated while every new
finalized agent is flagged, nobody's `elim_round` is ever written, and a
nonempty population is reduced to exactly one survivor. -/
theorem tournament_loop_spec (g : Nat → Nat) (sh : Nat → List Prisoner → List Prisoner)
    (hsh : ∀ n l, (sh n l).Perm l) (e rm : Int) :
    ∀ (fuel : Nat) (ps fp : List Prisoner) (c : Nat), ps.length ≤ fuel →
      ∃ ps' fp' c', tournament_loop g sh e rm fuel ps fp c = (ps', fp', c') ∧
        (ps'.map Prisoner.id ++ fp'.map Prisoner.id).Perm
          (ps.map Prisoner.id ++ fp.map Prisoner.id) ∧
        ((∀ p ∈ ps, p.elim = false) →
          (∀ p ∈ ps', p.elim = false) ∧ (∀ p ∈ fp', p ∈ fp ∨ p.elim = true)) ∧
        ((∀ p ∈ ps, p.elim_round = 0) →
          (∀ p ∈ ps', p.elim_round = 0) ∧ (∀ p ∈ fp', p ∈ fp ∨ p.elim_round = 0)) ∧
        (1 ≤ ps.length → ps' ≠ [] ∧ ps'.length ≤ 1) := by
  intro fuel
  induction fuel with
  | zero =>
    intro ps fp c hfuel
    have hnil : ps = [] := List.length_eq_zero.mp (by omega)
    subst hnil
    refine ⟨[], fp, c, rfl, List.Perm.refl _, ?_, ?_, by simp⟩
    · exact fun _ => ⟨fun p hp => absurd hp (List.not_mem_nil p), fun p hp => Or.inl hp⟩
    · exact fun _ => ⟨fun p hp => absurd hp (List.not_mem_nil p), fun p hp => Or.inl hp⟩
  | succ fuel ih =>
    intro ps fp c hfuel
    by_cases hl : ps.length > 1
    · have hp1 : (sh c ps).Perm ps := hsh c ps
      have hlen1 : (sh c ps).length = ps.length := hp1.length_eq
      obtain ⟨W, L, c1, heqp, hWlen, hLlen, hperm, hWe, hLe, hrnd⟩ :=
        pair_loop_spec g e rm (sh c ps) ((sh c ps).length / 2) 0
          (if (sh c ps).length % 2 = 1 then [(sh c ps).getD ((sh c ps).length / 2) default]
           else []) fp (c + 1) (by omega)
      have hcw0len :
          (if (sh c ps).length % 2 = 1 then [(sh c ps).getD ((sh c ps).length / 2) default]
           else ([] : List Prisoner)).length = (sh c ps).length % 2 := by
        by_cases h : (sh c ps).length % 2 = 1
        · simp [h]
        · simp only [if_neg h, List.length_nil]
          omega
      obtain ⟨ps', fp', c', heqt, hpermt, hbt, hrt, hexit⟩ :=
        ih ((if (sh c ps).length % 2 = 1 then [(sh c ps).getD ((sh c ps).length / 2) default]
             else []) ++ W) (fp ++ L) c1
          (by rw [List.length_append, hcw0len, hWlen]; omega)
      refine ⟨ps', fp', c', ?_, ?_, ?_, ?_, ?_⟩
      · show tournament_loop g sh e rm (fuel + 1) ps fp c = _
        simp only [tournament_loop, if_pos hl, heqp]
        exact heqt
      · refine hpermt.trans ?_
        have hmid : ((((if (sh c ps).length % 2 = 1
              then [(sh c ps).getD ((sh c ps).length / 2) default] else []) ++ W).map
                Prisoner.id) ++ ((fp ++ L).map Prisoner.id)).Perm
            (((sh c ps).map Prisoner.id) ++ (fp.map Prisoner.id)) := by
          rw [List.map_append Prisoner.id fp L]
          have s1 : ((((if (sh c ps).length % 2 = 1
                then [(sh c ps).getD ((sh c ps).length / 2) default] else []) ++ W).map
                  Prisoner.id) ++ (fp.map Prisoner.id ++ L.map Prisoner.id)).Perm
              ((((if (sh c ps).length % 2 = 1
                then [(sh c ps).getD ((sh c ps).length / 2) default] else []) ++ W).map
                  Prisoner.id) ++ (L.map Prisoner.id ++ fp.map Prisoner.id)) :=
            List.Perm.append_left _ List.perm_append_comm
          refine s1.trans ?_
          rw [← List.append_assoc]
          exact (round_ids_perm (sh c ps) W L hperm).append_right _
        refine hmid.trans ?_
        exact (hp1.map Prisoner.id).append_right _
      · intro hb
        have hb1 : ∀ p ∈ sh c ps, p.elim = false := fun p hp => hb p (hp1.subset hp)
        have hbmid : ∀ p ∈ (if (sh c ps).length % 2 = 1
            then [(sh c ps).getD ((sh c ps).length / 2) default] else []) ++ W,
            p.elim = false := by
          intro p hp
          rcases List.mem_append.mp hp with hp | hp
          · by_cases h : (sh c ps).length % 2 = 1
            · rw [if_pos h] at hp
              rcases List.mem_singleton.mp hp with rfl
              exact hb1 _ (getD_mem _ _ _ (by omega))
            · rw [if_neg h] at hp
              exact absurd hp (List.not_mem_nil p)
          · exact hWe hb1 p hp
        obtain ⟨hps', hfp'⟩ := hbt hbmid
        refine ⟨hps', ?_⟩
        intro p hp
        rcases hfp' p hp with hp2 | hp2
        · rcases List.mem_append.mp hp2 with hp3 | hp3
          · exact Or.inl hp3
          · exact Or.inr (hLe p hp3)
        · exact Or.inr hp2
      · intro hr
        have hr1 : ∀ p ∈ sh c ps, p.elim_round = 0 := fun p hp => hr p (hp1.subset hp)
        obtain ⟨hrW, hrL⟩ := hrnd hr1
        have hrmid : ∀ p ∈ (if (sh c ps).length % 2 = 1
            then [(sh c ps).getD ((sh c ps).length / 2) default] else []) ++ W,
            p.elim_round = 0 := by
          intro p hp
          rcases List.mem_append.mp hp with hp | hp
          · by_cases h : (sh c ps).length % 2 = 1
            · rw [if_pos h] at hp
              rcases List.mem_singleton.mp hp with rfl
              exact hr1 _ (getD_mem _ _ _ (by omega))
            · rw [if_neg h] at hp
              exact absurd hp (List.not_mem_nil p)
          · exact hrW p hp
        obtain ⟨hps', hfp'⟩ := hrt hrmid
        refine ⟨hps', ?_⟩
        intro p hp
        rcases hfp' p hp with hp2 | hp2
        · rcases List.mem_append.mp hp2 with hp3 | hp3
          · exact Or.inl hp3
          · exact Or.inr (hrL p hp3)
        · exact Or.inr hp2
      · intro _
        refine hexit ?_
        rw [List.length_append, hcw0len, hWlen]
        omega
    · refine ⟨ps, fp, c, ?_, List.Perm.refl _,
        fun hb => ⟨hb, fun p hp => Or.inl hp⟩,
        fun hr => ⟨hr, fun p hp => Or.inl hp⟩, ?_⟩
      · simp [tournament_loop, hl]
      · intro h1
        constructor
        · intro hnil
          rw [hnil] at h1
          simp at h1
        · omega

/-- What `set_up_matches` guarantees on any population of at least two
agents, for any permutation-producing shuffle oracle: it returns
`some (final_prisoners, prisoners)` with the caller's list reduced to the
single overall winner, appended last to the output; the output identities
are a permutation of the input's; fresh inputs give flagged losers, an
unflagged winner, and untouched `elim_round` fields. -/
theorem set_up_spec (g : Nat → Nat) (sh : Nat → List Prisoner → List Prisoner)
    (hsh : ∀ n l, (sh n l).Perm l) (prisoners : List Prisoner) (e rm : Int) (c : Nat)
    (hN : 2 ≤ prisoners.length) :
    ∃ fp' w, set_up_matches g sh prisoners e rm c = some (fp' ++ [w], [w]) ∧
      ((fp' ++ [w]).map Prisoner.id).Perm (prisoners.map Prisoner.id) ∧
      fp'.length + 1 = prisoners.length ∧
      ((∀ p ∈ prisoners, p.elim = false) →
        (∀ p ∈ fp', p.elim = true) ∧ w.elim = false) ∧
      ((∀ p ∈ prisoners, p.elim_round = 0) →
        (∀ p ∈ fp', p.elim_round = 0) ∧ w.elim_round = 0) := by
  obtain ⟨ps', fp', c', heqt, hperm, hb, hr, hexit⟩ :=
    tournament_loop_spec g sh hsh e rm prisoners.length prisoners [] c (Nat.le_refl _)
  obtain ⟨hne, hle1⟩ := hexit (by omega)
  obtain ⟨w, hps'⟩ : ∃ w, ps' = [w] := by
    cases ps' with
    | nil => exact absurd rfl hne
    | cons a t =>
      cases t with
      | nil => exact ⟨a, rfl⟩
      | cons b t2 => simp at hle1
  subst hps'
  have hsum : set_up_matches g sh prisoners e rm c = some (fp' ++ [w], [w]) := by
    simp only [set_up_matches, heqt]
  simp only [List.map_nil, List.append_nil] at hperm
  refine ⟨fp', w, hsum, ?_, ?_, ?_, ?_⟩
  · rw [List.map_append]
    refine List.Perm.trans List.perm_append_comm ?_
    simpa using hperm
  · have hl := hperm.length_eq
    simp at hl
    omega
  · intro hball
    obtain ⟨hpw, hpf⟩ := hb hball
    refine ⟨?_, hpw w (by simp)⟩
    intro p hp
    rcases hpf p hp with h | h
    · simp at h
    · exact h
  · intro hrall
    obtain ⟨hpw, hpf⟩ := hr hrall
    refine ⟨?_, hpw w (by simp)⟩
    intro p hp
    rcases hpf p hp with h | h
    · simp at h
    · exact h

/-- Claim C2 is false as stated: in a concrete two-agent tournament the
eliminated agent (the first of the two output entries, not the last) has its
elimination flag set but its `elim_round` is 0, not its bracket round index
1 — `set_elim_round` is never called anywhere in the program. -/
theorem c2_counterexample :
    ((set_up_matches g0 idsh [pA, pB] (-10) 1 0).getD ([], [])).1.length = 2 ∧
    (((set_up_matches g0 idsh [pA, pB] (-10) 1 0).getD ([], [])).1.getD 0 default).elim
      = true ∧
    (((set_up_matches g0 idsh [pA, pB] (-10) 1 0).getD ([], [])).1.getD 0
      default).elim_round = 0 := by
  decide

/-- Claim C2 (amended): for every population of at least two fresh agents,
every agent of the output except the last has `elim = true` but
`elim_round = 0` — the bracket never records an elimination round, since
`set_elim_round` is defined but never called — and the last element (the
winner) has `elim_round = 0` and `elim = false`. -/
theorem c2_amended (g : Nat → Nat) (sh : Nat → List Prisoner → List Prisoner)
    (hsh : ∀ n l, (sh n l).Perm l) (prisoners : List Prisoner) (e rm : Int) (c : Nat)
    (hN : 2 ≤ prisoners.length)
    (hb : ∀ p ∈ prisoners, p.elim = false)
    (hr : ∀ p ∈ prisoners, p.elim_round = 0) :
    ∃ out fin, set_up_matches g sh prisoners e rm c = some (out, fin) ∧
      (∀ p ∈ out.dropLast, p.elim = true ∧ p.elim_round = 0) ∧
      ∃ w, out.getLast? = some w ∧ w.elim = false ∧ w.elim_round = 0 := by
  obtain ⟨fp', w, heq, -, -, hbb, hrr⟩ := set_up_spec g sh hsh prisoners e rm c hN
  obtain ⟨hf, hw⟩ := hbb hb
  obtain ⟨hfr, hwr⟩ := hrr hr
  refine ⟨fp' ++ [w], [w], heq, ?_, w, List.getLast?_concat _, hw, hwr⟩
  rw [List.dropLast_concat]
  exact fun p hp => ⟨hf p hp, hfr p hp⟩

/-- Witness for `c2_amended` on a concrete two-agent population. -/
theorem c2_witness :
    2 ≤ ([pA, pB] : List Prisoner).length ∧
    (∀ p ∈ ([pA, pB] : List Prisoner), p.elim = false) ∧
    (∀ p ∈ ([pA, pB] : List Prisoner), p.elim_round = 0) ∧
    (∃ out fin, set_up_matches g0 idsh [pA, pB] (-10) 1 0 = some (out, fin) ∧
      (∀ p ∈ out.dropLast, p.elim = true ∧ p.elim_round = 0) ∧
      ∃ w, out.getLast? = some w ∧ w.elim = false ∧ w.elim_round = 0) :=
  ⟨by decide, by decide, by decide,
    c2_amended g0 idsh (fun _ l => List.Perm.refl l) [pA, pB] (-10) 1 0
      (by decide) (by decide) (by decide)⟩

/-- Claim C4 is false as stated: a population of exactly one agent does NOT
fail fast — `set_up_matches` returns normally, handing back the single agent
as overall winner. -/
theorem c4_counterexample :
    set_up_matches g0 idsh [pA] 0 0 0 = some ([pA], [pA]) := by
  decide

/-- Claim C4 (amended): `set_up_matches` performs no input validation.  On
an empty population the loop is skipped and the final `current_winners[0]`
access raises an uncaught IndexError (modelled as `none`); on a single-agent
population it does not fail at all: it returns that agent as the overall
winner and leaves the caller's list untouched. -/
theorem c4_amended (g : Nat → Nat) (sh : Nat → List Prisoner → List Prisoner)
    (e rm : Int) (c : Nat) (p : Prisoner) :
    set_up_matches g sh [] e rm c = none ∧
    set_up_matches g sh [p] e rm c = some ([p], [p]) :=
  ⟨rfl, rfl⟩

/-- Claim C5: for every population of at least two fresh agents,
`set_up_matches` returns a list of exactly `N` agents whose identities are a
permutation of the input's (no duplicates, no omissions), with the
un-eliminated tournament winner as the last element and every earlier
element flagged eliminated. -/
theorem c5_theorem (g : Nat → Nat) (sh : Nat → List Prisoner → List Prisoner)
    (hsh : ∀ n l, (sh n l).Perm l) (prisoners : List Prisoner) (e rm : Int) (c : Nat)
    (hN : 2 ≤ prisoners.length) (hb : ∀ p ∈ prisoners, p.elim = false) :
    ∃ out fin, set_up_matches g sh prisoners e rm c = some (out, fin) ∧
      out.length = prisoners.length ∧
      (out.map Prisoner.id).Perm (prisoners.map Prisoner.id) ∧
      ∃ w, out.getLast? = some w ∧ w.elim = false ∧ ∀ p ∈ out.dropLast, p.elim = true := by
  obtain ⟨fp', w, heq, hperm, hlen, hbb, -⟩ := set_up_spec g sh hsh prisoners e rm c hN
  obtain ⟨hf, hw⟩ := hbb hb
  refine ⟨fp' ++ [w], [w], heq, ?_, hperm, w, List.getLast?_concat _, hw, ?_⟩
  · simp only [List.length_append, List.length_singleton]
    omega
  · rw [List.dropLast_concat]
    exact hf

/-- Witness for `c5_theorem` on a concrete two-agent population. -/
theorem c5_witness :
    2 ≤ ([pA, pB] : List Prisoner).length ∧
    (∀ p ∈ ([pA, pB] : List Prisoner), p.elim = false) ∧
    (∃ out fin, set_up_matches g0 idsh [pA, pB] (-10) 1 0 = some (out, fin) ∧
      out.length = ([pA, pB] : List Prisoner).length ∧
      (out.map Prisoner.id).Perm (([pA, pB] : List Prisoner).map Prisoner.id) ∧
      ∃ w, out.getLast? = some w ∧ w.elim = false ∧ ∀ p ∈ out.dropLast, p.elim = true) :=
  ⟨by decide, by decide,
    c5_theorem g0 idsh (fun _ l => List.Perm.refl l) [pA, pB] (-10) 1 0
      (by decide) (by decide)⟩

/-- Claim C10: `set_up_matches` mutates the caller's agent list in place
(shuffled, cleared and refilled each round); for every population of at
least two agents (and any permutation-producing shuffle), after it returns
the caller's list holds exactly one element — the tournament winner, the
same agent appended last to the output. -/
theorem c10_theorem (g : Nat → Nat) (sh : Nat → List Prisoner → List Prisoner)
    (hsh : ∀ n l, (sh n l).Perm l) (prisoners : List Prisoner) (e rm : Int) (c : Nat)
    (hN : 2 ≤ prisoners.length) :
    ∃ out w, set_up_matches g sh prisoners e rm c = some (out, [w]) ∧
      out.getLast? = some w := by
  obtain ⟨fp', w, heq, -, -, -, -⟩ := set_up_spec g sh hsh prisoners e rm c hN
  exact ⟨fp' ++ [w], w, heq, List.getLast?_concat _⟩

/-- Witness for `c10_theorem` on a concrete two-agent population. -/
theorem c10_witness :
    2 ≤ ([pA, pB] : List Prisoner).length ∧
    (∃ out w, set_up_matches g0 idsh [pA, pB] (-10) 1 0 = some (out, [w]) ∧
      out.getLast? = some w) :=
  ⟨by decide,
    c10_theorem g0 idsh (fun _ l => List.Perm.refl l) [pA, pB] (-10) 1 0 (by decide)⟩
